import Mathlib

/-!
# Verification of the Gemini executor streaming core

Shallow embedding of `src/backend/src/executors/gemini.rs` (vibe-kanban):
the log normalizer, the output formatter, the chunk-boundary finder, the
per-execution patch WAL, the dual-buffer streaming loop and the follow-up
prompt builder, together with theorems settling the specification claims.

Modelling conventions:
* Rust `Uuid` identifiers are modelled as `Nat` (only equality is used).
* `chrono::Utc::now()` timestamps are passed in as an explicit `now : String`
  parameter; no claim depends on their value.
* `serde_json::from_str::<NormalizedEntry>` (an external library call) is
  modelled as an arbitrary parameter `decode : String → Option NormalizedEntry`
  (`some` = `Ok`, `none` = `Err`); all theorems hold for every decoder.
* Rust byte indices/lengths on UTF-8 strings are modelled as character
  indices/lengths; Rust's Unicode `char::is_uppercase`/`is_whitespace` are
  modelled by their ASCII restrictions (`Char.isUpper`, `String.trim`).
* The submodules `config.rs` and `streaming.rs` and the crate-level
  `executor.rs` / `task.rs` are not part of the provided sources; the
  definitions taken from them are modelled from the spec and marked
  `Modelled from the spec:` in their doc comments.
-/

/-- The character `{` (written via its code point to keep it out of literals). -/
def lbrace : Char := Char.ofNat 123

/-- Modelled from the spec: the entry-type tag of a canonical log entry
(`NormalizedEntryType` lives in the missing `executor.rs`); the spec fixes
assistant message and system message and leaves the rest to collaborators,
which the `other` constructor stands for. -/
inductive NormalizedEntryType where
  | assistant_message : NormalizedEntryType
  | system_message : NormalizedEntryType
  | other : String → NormalizedEntryType
deriving DecidableEq

/-- Modelled from the spec: a canonical unit of conversation output
(`NormalizedEntry` lives in the missing `executor.rs`): optional timestamp,
entry-type tag, content text, optional structured metadata. -/
structure NormalizedEntry where
  timestamp : Option String
  entry_type : NormalizedEntryType
  content : String
  metadata : Option String
deriving DecidableEq

/-- Modelled from the spec: an ordered entry sequence plus provenance fields
(`NormalizedConversation` lives in the missing `executor.rs`). -/
structure NormalizedConversation where
  entries : List NormalizedEntry
  session_id : Option String
  executor_type : String
  prompt : Option String
  summary : Option String
deriving DecidableEq

/-- Embedding of Rust `str::trim` (ASCII-whitespace restriction), defined
over the character list so that it is kernel-computable. -/
def rustTrim (s : String) : String :=
  String.mk (((s.data.dropWhile Char.isWhitespace).reverse.dropWhile Char.isWhitespace).reverse)

/-- Rust strips one trailing `'\r'` from each line produced by `str::lines`. -/
def stripTrailingCR (l : String) : String :=
  if l.data.getLast? = some '\r' then String.mk l.data.dropLast else l

/-- Embedding of Rust `str::lines()`: split on `'\n'`, drop the empty
fragment produced by a trailing newline, strip one trailing `'\r'` per line. -/
def rustLines (s : String) : List String :=
  let parts := s.splitOn "\n"
  let parts := match parts.getLast? with
    | some "" => parts.dropLast
    | _ => parts
  parts.map stripTrailingCR

/-- The fallback entry `normalize_logs` builds for a JSON-looking line that
fails to decode (source lines 167-172). -/
def fallbackEntry (now : String) (trimmed : String) : NormalizedEntry :=
  { timestamp := some now
    entry_type := NormalizedEntryType.system_message
    content := "Raw output: " ++ trimmed
    metadata := none }

/-- The plain-text entry `normalize_logs` builds for a non-JSON line
(source lines 178-183). -/
def plainTextEntry (now : String) (trimmed : String) : NormalizedEntry :=
  { timestamp := some now
    entry_type := NormalizedEntryType.assistant_message
    content := trimmed
    metadata := none }

/-- One iteration of the `normalize_logs` loop (source lines 145-186): the
accumulator carries the entries built so far and the line numbers of decode
failures (the source's `parse_errors`, which are only logged). -/
def processLine (decode : String → Option NormalizedEntry) (now : String)
    (acc : List NormalizedEntry × List Nat) (p : Nat × String) :
    List NormalizedEntry × List Nat :=
  let trimmed := rustTrim p.2
  if trimmed = "" then acc
  else if trimmed.data.head? = some lbrace then
    match decode trimmed with
    | some entry => (acc.1 ++ [entry], acc.2)
    | none => (acc.1 ++ [fallbackEntry now trimmed], acc.2 ++ [p.1 + 1])
  else
    (acc.1 ++ [plainTextEntry now trimmed], acc.2)

/-- Embedding of `GeminiExecutor::normalize_logs` (source lines 137-209).
The decode-failure summary (`parse_errors`) is computed but, as in the
source, only logged, never returned; the error channel of the Rust
`Result<NormalizedConversation, String>` is the `Except` error variant,
which the body never constructs. -/
def normalize_logs (decode : String → Option NormalizedEntry) (now : String)
    (logs : String) (_worktree_path : String) :
    Except String NormalizedConversation :=
  let folded := ((rustLines logs).enum).foldl (processLine decode now) ([], [])
  Except.ok
    { entries := folded.1
      session_id := none
      executor_type := "gemini"
      prompt := none
      summary := none }

/-- The non-empty trimmed lines of a transcript, as the spec counts them. -/
def nonEmptyTrimmedLines (logs : String) : List String :=
  ((rustLines logs).map rustTrim).filter (fun t => decide (t ≠ ""))

/-- The entry the spec prescribes for one non-empty trimmed line: decoded
verbatim if it starts with an opening brace and decodes, fallback
system-message entry if it starts with an opening brace and fails to decode,
plain assistant-message entry otherwise. -/
def specLineEntry (decode : String → Option NormalizedEntry) (now : String)
    (t : String) : NormalizedEntry :=
  if t.data.head? = some lbrace then
    match decode t with
    | some entry => entry
    | none => fallbackEntry now t
  else
    plainTextEntry now t

/-! ## Output formatter (`format_gemini_output`, source lines 611-642) -/

/-- ASCII restriction of Rust `c.is_uppercase() && c.is_alphabetic()`. -/
def isUpperAlpha (c : Char) : Bool := c.isUpper

/-- The source's `chars.first().map(|c| uppercase && alphabetic)` check. -/
def headIsUpper (s : String) : Bool :=
  match s.data.head? with
  | some c => isUpperAlpha c
  | none => false

/-- The source's `accumulated_message.ends_with('.')` check. -/
def endsWithPeriod (s : String) : Bool := s.data.getLast? = some '.'

/-- The source's intra-chunk loop (lines 629-639): after every `'.'` that is
immediately followed by an uppercase alphabetic character, push a `'\n'`. -/
def insertIntraBreaks : List Char → List Char
  | [] => []
  | [c] => [c]
  | c :: d :: rest =>
      if c = '.' ∧ isUpperAlpha d = true then c :: '\n' :: insertIntraBreaks (d :: rest)
      else c :: insertIntraBreaks (d :: rest)

/-- Embedding of `GeminiExecutor::format_gemini_output` (source lines
611-642): a cross-chunk newline when the accumulated message ends with a
period and the chunk starts with an uppercase letter, then the intra-chunk
period-to-capital repair. -/
def format_gemini_output (content : String) (accumulated_message : String) : String :=
  let cross : String :=
    if accumulated_message ≠ "" ∧ content ≠ "" ∧
        endsWithPeriod accumulated_message = true ∧ headIsUpper content = true
    then "\n" else ""
  cross ++ String.mk (insertIntraBreaks content.data)

/-- Whether, per the spec's words, a break belongs right after position `i`:
the character at `i` is a period and the one at `i + 1` is uppercase. -/
def breakAfter (cs : List Char) (i : Nat) : Bool :=
  match cs.get? i, cs.get? (i + 1) with
  | some c, some d => decide (c = '.') && isUpperAlpha d
  | _, _ => false

/-- Position-indexed statement of the intra-chunk repair, following the
spec's words: each character is kept, with a `'\n'` inserted wherever a
period is immediately followed by an uppercase letter. -/
def intraSpec (cs : List Char) : List Char :=
  ((List.range cs.length).map (fun i =>
    match cs.get? i with
    | some c => if breakAfter cs i = true then [c, '\n'] else [c]
    | none => [])).flatten

/-! ## Boundary finder (`find_chunk_boundary`) -/

/-- `testAt p cs i` holds when index `i` is inside `cs` and its character
satisfies `p`. -/
def testAt (p : Char → Bool) (cs : List Char) (i : Nat) : Bool :=
  match cs.get? i with
  | some c => p c
  | none => false

/-- Largest index `i ≤ limit` whose character satisfies `p`, searching
downward from `limit`. -/
def searchDown (p : Char → Bool) (cs : List Char) : Nat → Option Nat
  | 0 => if testAt p cs 0 then some 0 else none
  | i + 1 => if testAt p cs (i + 1) then some (i + 1) else searchDown p cs i

/-- Sentence-ending punctuation. -/
def isSentenceEnd (c : Char) : Bool := c = '.' || c = '!' || c = '?'

/-- Modelled from the spec: `GeminiStreaming::find_chunk_boundary` lives in
the missing `streaming.rs`; per the spec's preference order it returns the
position of the last newline at or before the size limit, failing that the
position of the last sentence-ending punctuation mark at or before the
limit, failing that the limit itself (hard cut). -/
def find_chunk_boundary (buffer : String) (max_size : Nat) : Nat :=
  match searchDown (fun c => decide (c = '\n')) buffer.data max_size with
  | some i => i
  | none =>
    match searchDown isSentenceEnd buffer.data max_size with
    | some i => i
    | none => max_size

/-! ## Patch log (WAL) store

`GeminiStreaming::push_patch` / `get_wal_batches` / `finalize_execution`
live in the missing `streaming.rs`; the store below is modelled from the
spec (§3 "WAL entry", §4.5): a process-wide keyed store of ordered patch
batches, append assigns a strictly increasing id, cursor read, eviction on
finalize. -/

/-- A JSON-patch operation kind (`"op"` field of the emitted patches). -/
inductive POp where
  | add : POp
  | replace : POp
deriving DecidableEq

/-- One patch operation as emitted by `emit_message_patch`: the `path`
`"/entries/{index}"` is modelled by the index itself; the `value`'s
timestamp and null metadata are omitted (no claim observes them). -/
structure PatchOp where
  op : POp
  index : Nat
  content : String
deriving DecidableEq

/-- Modelled from the spec: a `GeminiPatchBatch` (missing `streaming.rs`):
an id assigned at append time, the operations, and a content-length hint. -/
structure GeminiPatchBatch where
  batch_id : Nat
  patches : List PatchOp
  content_length : Nat
deriving DecidableEq

/-- Modelled from the spec: one execution's WAL entry — its batches in
append order plus the next id to assign. -/
structure WalEntry where
  batches : List GeminiPatchBatch
  next_id : Nat
deriving DecidableEq

/-- Modelled from the spec: the process-wide WAL store, keyed by
execution-process identifier (modelled as `Nat`). -/
abbrev WalStore := List (Nat × WalEntry)

/-- Lookup of an execution's WAL entry. -/
def walLookup (s : WalStore) (e : Nat) : Option WalEntry :=
  match s with
  | [] => none
  | (k, en) :: rest => if k = e then some en else walLookup rest e

/-- Replace the (first) entry stored under key `e`. -/
def walSet (s : WalStore) (e : Nat) (en : WalEntry) : WalStore :=
  match s with
  | [] => []
  | (k, en0) :: rest => if k = e then (k, en) :: rest else (k, en0) :: walSet rest e en

/-- Modelled from the spec: `push(execution_id, operations,
content_length_hint)` appends a new `GeminiPatchBatch` whose id is strictly
greater than all previously assigned ids for that execution id (ids start
at 1); the first push creates the WAL entry. -/
def walPush (s : WalStore) (e : Nat) (ps : List PatchOp) (len : Nat) : WalStore :=
  match walLookup s e with
  | some en =>
      walSet s e
        { batches := en.batches ++ [{ batch_id := en.next_id, patches := ps, content_length := len }]
          next_id := en.next_id + 1 }
  | none => s ++ [(e, { batches := [{ batch_id := 1, patches := ps, content_length := len }], next_id := 2 })]

/-- Modelled from the spec: `finalize(execution_id, ...)` evicts the WAL
entry for that id (durable persistence is handled by the engine state). -/
def walFinalize (s : WalStore) (e : Nat) : WalStore :=
  match s with
  | [] => []
  | (k, en) :: rest => if k = e then walFinalize rest e else (k, en) :: walFinalize rest e

/-- Modelled from the spec: `read(execution_id, after_id)` returns the
batches with id greater than the cursor, in stored order, or absent when the
execution id has no WAL entry (never started, or already finalized). -/
def get_wal_batches (s : WalStore) (e : Nat) (after_batch_id : Option Nat) :
    Option (List GeminiPatchBatch) :=
  (walLookup s e).map (fun en =>
    match after_batch_id with
    | none => en.batches
    | some x => en.batches.filter (fun b => decide (x < b.batch_id)))

/-- A WAL-store operation, for stating store-level claims. -/
inductive WalOp where
  | push : Nat → List PatchOp → Nat → WalOp
  | fin : Nat → WalOp
deriving DecidableEq

/-- Apply one store operation. -/
def applyWalOp (s : WalStore) : WalOp → WalStore
  | WalOp.push e ps len => walPush s e ps len
  | WalOp.fin e => walFinalize s e

/-- Run a sequence of store operations. -/
def runWalOps (s : WalStore) (ops : List WalOp) : WalStore :=
  ops.foldl applyWalOp s

/-- The payloads pushed for execution id `e`, in call order. -/
def pushesFor (e : Nat) : List WalOp → List (List PatchOp × Nat)
  | [] => []
  | WalOp.push e' ps len :: rest =>
      if e' = e then (ps, len) :: pushesFor e rest else pushesFor e rest
  | WalOp.fin _ :: rest => pushesFor e rest

/-- No `finalize` for execution id `e` occurs in the operation list. -/
def noFinalizeFor (e : Nat) (ops : List WalOp) : Bool :=
  ops.all (fun op =>
    match op with
    | WalOp.fin e' => decide (e' ≠ e)
    | _ => true)

/-- No push for execution id `e` occurs in the operation list. -/
def noPushFor (e : Nat) (ops : List WalOp) : Bool :=
  ops.all (fun op =>
    match op with
    | WalOp.push e' _ _ => decide (e' ≠ e)
    | _ => true)

/-- The batches a sequence of payloads produces when appended starting at
id `start`. -/
def mkBatches (start : Nat) : List (List PatchOp × Nat) → List GeminiPatchBatch
  | [] => []
  | (ps, len) :: rest =>
      { batch_id := start, patches := ps, content_length := len } :: mkBatches (start + 1) rest

/-- The payload of a stored batch. -/
def batchPayload (b : GeminiPatchBatch) : List PatchOp × Nat :=
  (b.patches, b.content_length)

/-! ## Dual-buffer streaming engine (`stream_gemini_chunked`, source lines
644-781, with `emit_message_patch` lines 338-382 and `emit_final_content`
lines 385-398) -/

/-- Modelled from the spec: the size thresholds of the missing `config.rs`
(`GeminiStreamConfig`, `max_display_size`, `max_message_size` and the
durable-flush threshold); latency expiry is supplied per read event. -/
structure GeminiStreamConfig where
  display_chunk_size : Nat
  message_boundary_size : Nat
  db_flush_size : Nat
deriving DecidableEq

/-- The engine-local state of one streaming run, together with the shared
WAL store, an observational log of every patch operation ever pushed
(`trace`, in push order — the WAL alone forgets them on eviction), and the
durable store's received chunks (`db`). -/
structure EngineState where
  current_message : String
  db_buffer : String
  entry_count : Nat
  wal : WalStore
  trace : List PatchOp
  db : List String
deriving DecidableEq

/-- The engine state at the start of a run, over an empty store. -/
def initState : EngineState :=
  { current_message := "", db_buffer := "", entry_count := 0
    wal := [], trace := [], db := [] }

/-- `GeminiExecutor::push_patch` (source lines 300-303): append to the WAL;
the trace records the same operations observationally. -/
def pushPatch (e : Nat) (ps : List PatchOp) (len : Nat) (s : EngineState) : EngineState :=
  { s with wal := walPush s.wal e ps len, trace := s.trace ++ ps }

/-- Embedding of `GeminiExecutor::emit_message_patch` (source lines
338-382): nothing for an empty message; an `add` patch at the next index
when forcing a new message with a positive entry count; otherwise a
`replace` patch at the current index, initializing the count to 1 first. -/
def emit_message_patch (e : Nat) (current_message : String)
    (force_new_message : Bool) (s : EngineState) : EngineState :=
  if current_message = "" then s
  else if force_new_message = true ∧ 0 < s.entry_count then
    let ec := s.entry_count + 1
    pushPatch e [{ op := POp.add, index := ec - 1, content := current_message }]
      current_message.length { s with entry_count := ec }
  else
    let ec := if s.entry_count = 0 then 1 else s.entry_count
    pushPatch e [{ op := POp.replace, index := ec - 1, content := current_message }]
      current_message.length { s with entry_count := ec }

/-- Modelled from the spec: `GeminiStreaming::maybe_flush_chunk` (missing
`streaming.rs`) flushes the durable buffer to the store when it crosses its
size threshold. -/
def maybe_flush_chunk (cfg : GeminiStreamConfig) (s : EngineState) : EngineState :=
  if cfg.db_flush_size ≤ s.db_buffer.length ∧ s.db_buffer ≠ "" then
    { s with db := s.db ++ [s.db_buffer], db_buffer := "" }
  else s

/-- One stream event as seen by the reader loop: a successful read of raw
bytes (with whether the max-latency timer has expired, the loop's only
time-dependent input), end of stream (`Ok(0)`), or a read error. -/
inductive Event where
  | read : String → Bool → Event
  | eof : Event
  | err : Event
deriving DecidableEq

/-- The start of the `Ok(n)` branch (source lines 698-704): format the raw
chunk against the current message and append it to both buffers. -/
def stepAppend (s : EngineState) (raw : String) : EngineState :=
  let formatted := format_gemini_output raw s.current_message
  { s with current_message := s.current_message ++ formatted
           db_buffer := s.db_buffer ++ formatted }

/-- Chunk emission (source lines 706-720): when the display size is reached
or the latency timer expired on a non-empty message, emit a `replace` patch
for the growing message. -/
def stepEmitChunk (cfg : GeminiStreamConfig) (e : Nat) (latencyExpired : Bool)
    (s : EngineState) : EngineState :=
  if cfg.display_chunk_size ≤ s.current_message.length ∨
      (latencyExpired = true ∧ s.current_message ≠ "")
  then emit_message_patch e s.current_message false s
  else s

/-- Message-boundary crossing (source lines 722-759): at the boundary size,
find a split point; at a usable interior split, emit a `replace` patch
completing the current entry, flush the durable buffer, keep the remainder
as the new current message and increment the entry counter. -/
def stepBoundary (cfg : GeminiStreamConfig) (e : Nat) (s : EngineState) : EngineState :=
  if cfg.message_boundary_size ≤ s.current_message.length then
    let boundary := find_chunk_boundary s.current_message cfg.message_boundary_size
    if 0 < boundary ∧ boundary < s.current_message.length then
      let completed_message := s.current_message.take boundary
      let remaining_content := s.current_message.drop boundary
      let s1 := emit_message_patch e completed_message false s
      let s2 := maybe_flush_chunk cfg s1
      { s2 with current_message := remaining_content
                entry_count := s2.entry_count + 1 }
    else s
  else s

/-- The `Ok(n)` branch of the read loop (source lines 697-764): append the
formatted chunk to both buffers, maybe emit a chunk patch, maybe cross a
message boundary, then maybe flush the durable buffer. -/
def stepRead (cfg : GeminiStreamConfig) (e : Nat) (s : EngineState)
    (raw : String) (latencyExpired : Bool) : EngineState :=
  maybe_flush_chunk cfg
    (stepBoundary cfg e (stepEmitChunk cfg e latencyExpired (stepAppend s raw)))

/-- The `Ok(0)` branch (source lines 684-695): `emit_final_content` (a
`replace` patch when the remaining message is not blank), then
`finalize_execution` — modelled from the spec: persist the remaining durable
buffer and evict the WAL entry. -/
def stepEof (_cfg : GeminiStreamConfig) (e : Nat) (s : EngineState) : EngineState :=
  let s1 := if rustTrim s.current_message ≠ "" then emit_message_patch e s.current_message false s else s
  { s1 with wal := walFinalize s1.wal e
            db := s1.db ++ (if s1.db_buffer = "" then [] else [s1.db_buffer]) }

/-- The read loop of `stream_gemini_chunked`: process events until end of
stream (run the end-of-stream path, ignore the rest) or a read error (stop
with no further action). -/
def runEngine (cfg : GeminiStreamConfig) (e : Nat) (s : EngineState) :
    List Event → EngineState
  | [] => s
  | Event.read raw lat :: rest => runEngine cfg e (stepRead cfg e s raw lat) rest
  | Event.eof :: _ => stepEof cfg e s
  | Event.err :: _ => s

/-- Every event in the list is a successful read. -/
def allReads (evs : List Event) : Bool :=
  evs.all (fun ev =>
    match ev with
    | Event.read _ _ => true
    | _ => false)

/-- Run-extension invariant between two engine states: the entry counter
never decreases, the patch trace only grows, and every newly pushed patch
is a `replace` whose target index is at least the earlier counter minus
one. -/
def EngineExt (a b : EngineState) : Prop :=
  a.entry_count ≤ b.entry_count ∧
  ∃ t, b.trace = a.trace ++ t ∧
    ∀ p ∈ t, p.op = POp.replace ∧ a.entry_count ≤ p.index + 1

/-! ## Follow-up prompt (`build_comprehensive_prompt`, source lines 427-477) -/

/-- Modelled from the spec: the fields of `Task` (missing `task.rs`) that
the prompt builder reads; `Uuid` identifiers are their display strings. -/
structure TaskModel where
  id : String
  project_id : String
  title : String
  description : Option String
deriving DecidableEq

/-- Modelled from the spec: the resume context (missing
`task_attempt.rs`): prior execution history text and cumulative diff text. -/
structure AttemptResumeContext where
  execution_history : String
  cumulative_diffs : String
deriving DecidableEq

/-- The follow-up executor's own fields (source lines 34-37). -/
structure GeminiFollowupExecutor where
  attempt_id : String
  prompt : String
deriving DecidableEq

/-- Embedding of `GeminiFollowupExecutor::build_comprehensive_prompt`
(source lines 427-477): the fixed template with the task fields, the
execution history (placeholder when it trims to empty), the cumulative
diffs (placeholder when they trim to empty), and the new request. -/
def build_comprehensive_prompt (self : GeminiFollowupExecutor) (task : TaskModel)
    (resume_context : AttemptResumeContext) : String :=
  "RESUME CONTEXT FOR CONTINUING TASK\n\n=== TASK INFORMATION ===\nProject ID: "
  ++ task.project_id
  ++ "\nTask ID: " ++ task.id
  ++ "\nTask Title: " ++ task.title
  ++ "\nTask Description: " ++ task.description.getD "No description provided"
  ++ "\n\n=== EXECUTION HISTORY ===\nThe following is the execution history from this task attempt:\n\n"
  ++ (if rustTrim resume_context.execution_history = "" then "(No previous execution history)"
      else resume_context.execution_history)
  ++ "\n\n=== CURRENT CHANGES ===\nThe following git diff shows changes made from the base branch to the current state:\n\n```diff\n"
  ++ (if rustTrim resume_context.cumulative_diffs = "" then "(No changes detected)"
      else resume_context.cumulative_diffs)
  ++ "\n```\n\n=== CURRENT REQUEST ===\n"
  ++ self.prompt
  ++ "\n\n=== INSTRUCTIONS ===\nYou are continuing work on the above task. The execution history shows what has been done previously, and the git diff shows the current state of all changes. Please continue from where the previous execution left off, taking into account all the context provided above.\n"

/-- The prompt builder as claim C9 words it: the history and diff
placeholders are substituted exactly when those texts are empty (and the
description placeholder when the description is absent); otherwise the
source text appears verbatim. Written from the claim for comparison with
the source embedding. -/
def buildPromptClaimed (self : GeminiFollowupExecutor) (task : TaskModel)
    (resume_context : AttemptResumeContext) : String :=
  "RESUME CONTEXT FOR CONTINUING TASK\n\n=== TASK INFORMATION ===\nProject ID: "
  ++ task.project_id
  ++ "\nTask ID: " ++ task.id
  ++ "\nTask Title: " ++ task.title
  ++ "\nTask Description: " ++ task.description.getD "No description provided"
  ++ "\n\n=== EXECUTION HISTORY ===\nThe following is the execution history from this task attempt:\n\n"
  ++ (if resume_context.execution_history = "" then "(No previous execution history)"
      else resume_context.execution_history)
  ++ "\n\n=== CURRENT CHANGES ===\nThe following git diff shows changes made from the base branch to the current state:\n\n```diff\n"
  ++ (if resume_context.cumulative_diffs = "" then "(No changes detected)"
      else resume_context.cumulative_diffs)
  ++ "\n```\n\n=== CURRENT REQUEST ===\n"
  ++ self.prompt
  ++ "\n\n=== INSTRUCTIONS ===\nYou are continuing work on the above task. The execution history shows what has been done previously, and the git diff shows the current state of all changes. Please continue from where the previous execution left off, taking into account all the context provided above.\n"

/-- `strContains big small`: `small` occurs verbatim inside `big`. -/
def strContains (big small : String) : Prop :=
  ∃ pre post, big = pre ++ (small ++ post)

/-- Concrete inputs exhibiting the C9 discrepancy: a whitespace-only (but
non-empty) execution history. -/
def c9Task : TaskModel :=
  { id := "t1", project_id := "p1", title := "T", description := some "d" }

/-- Resume context whose execution history is a single space. -/
def c9Ctx : AttemptResumeContext :=
  { execution_history := " ", cumulative_diffs := "x" }

/-- A concrete follow-up executor. -/
def c9Exec : GeminiFollowupExecutor :=
  { attempt_id := "a1", prompt := "go" }

/-! # Theorems -/

/-! ## Log normalizer: claims C3, C4, C10 -/

theorem normalize_fold (decode : String → Option NormalizedEntry) (now : String) :
    ∀ (ps : List (Nat × String)) (acc : List NormalizedEntry × List Nat),
      (ps.foldl (processLine decode now) acc).1
        = acc.1 ++ (((ps.map Prod.snd).map rustTrim).filter
            (fun t => decide (t ≠ ""))).map (specLineEntry decode now) := by
  intro ps
  induction ps with
  | nil => intro acc; simp
  | cons p rest ih =>
    intro acc
    simp only [List.foldl_cons, List.map_cons, List.filter_cons]
    rw [ih]
    by_cases h : rustTrim p.2 = ""
    · simp [processLine, h]
    · simp only [h, decide_not, ne_eq, not_false_eq_true, decide_True, List.map_cons]
      by_cases hb : (rustTrim p.2).data.head? = some lbrace
      · cases hd : decode (rustTrim p.2) with
        | some entry =>
          simp [processLine, h, hb, hd, specLineEntry, List.append_assoc]
        | none =>
          simp [processLine, h, hb, hd, specLineEntry, List.append_assoc]
      · simp [processLine, h, hb, specLineEntry, List.append_assoc]

/-- C3: for any input transcript, `normalize_logs` yields exactly one
`NormalizedEntry` per non-empty trimmed line, in the order of the input
lines, each being the decoded entry (verbatim) for a decodable brace line,
the prefixed fallback system-message entry for an undecodable brace line,
and a plain assistant-message entry otherwise. -/
theorem normalize_logs_entries_per_line
    (decode : String → Option NormalizedEntry) (now : String)
    (logs worktree : String) :
    ∃ conv, normalize_logs decode now logs worktree = Except.ok conv ∧
      conv.entries = (nonEmptyTrimmedLines logs).map (specLineEntry decode now) := by
  refine ⟨_, rfl, ?_⟩
  show (((rustLines logs).enum).foldl (processLine decode now) ([], [])).1 = _
  rw [normalize_fold decode now ((rustLines logs).enum) ([], [])]
  rw [List.enum_map_snd]
  simp [nonEmptyTrimmedLines]

/-- C4: `normalize_logs` is total over its error channel — it returns
`Except.ok` for every input string, regardless of how malformed it is. -/
theorem normalize_logs_never_fails
    (decode : String → Option NormalizedEntry) (now : String)
    (logs worktree : String) :
    ∃ conv, normalize_logs decode now logs worktree = Except.ok conv :=
  ⟨_, rfl⟩

/-- C10: the conversation returned by `normalize_logs` always has
`executor_type = "gemini"` and absent `session_id`, `prompt` and `summary`,
whatever the transcript contains. -/
theorem normalize_logs_provenance_fixed
    (decode : String → Option NormalizedEntry) (now : String)
    (logs worktree : String) :
    ∃ conv, normalize_logs decode now logs worktree = Except.ok conv ∧
      conv.executor_type = "gemini" ∧ conv.session_id = none ∧
      conv.prompt = none ∧ conv.summary = none :=
  ⟨_, rfl, rfl, rfl, rfl, rfl⟩

/-! ## Output formatter: claim C6 -/

theorem intraSpec_nil : intraSpec [] = [] := rfl

theorem breakAfter_cons_succ (c : Char) (l : List Char) (i : Nat) :
    breakAfter (c :: l) (i + 1) = breakAfter l i := by
  simp [breakAfter]

theorem intraSpec_cons (c : Char) (l : List Char) :
    intraSpec (c :: l)
      = (if breakAfter (c :: l) 0 = true then [c, '\n'] else [c]) ++ intraSpec l := by
  unfold intraSpec
  rw [List.length_cons, List.range_succ_eq_map, List.map_cons, List.flatten_cons, List.map_map]
  rfl

theorem insertIntraBreaks_eq_intraSpec (cs : List Char) :
    insertIntraBreaks cs = intraSpec cs := by
  induction cs using insertIntraBreaks.induct with
  | case1 => rfl
  | case2 c =>
    rw [intraSpec_cons]
    simp [insertIntraBreaks, breakAfter, intraSpec_nil]
  | case3 c d rest h ih =>
    obtain ⟨hc, hd⟩ := h
    subst hc
    have hb : breakAfter ('.' :: d :: rest) 0 = true := by
      simp [breakAfter, hd]
    rw [intraSpec_cons, hb]
    simp [insertIntraBreaks, hd, ih]
  | case4 c d rest h ih =>
    have hb : breakAfter (c :: d :: rest) 0 = false := by
      simp only [breakAfter, List.get?_cons_zero, List.get?_cons_succ]
      by_cases hc : c = '.'
      · subst hc
        simp only [not_and] at h
        simpa using h trivial
      · simp [hc]
    rw [intraSpec_cons, hb]
    simp [insertIntraBreaks, h, ih]

theorem endsWithPeriod_ne_empty {s : String} (h : endsWithPeriod s = true) : s ≠ "" := by
  intro heq
  subst heq
  exact absurd h (by decide)

theorem headIsUpper_ne_empty {s : String} (h : headIsUpper s = true) : s ≠ "" := by
  intro heq
  subst heq
  exact absurd h (by decide)

/-- C6: the formatter inserts a line break exactly where a period is
immediately followed by an uppercase letter — position-by-position within
the chunk (`intraSpec`), and once across the chunk boundary, determined
solely by the last character of the prior accumulated message and the first
character of the new chunk; on the concrete examples, accumulated `"word."`
with chunk `"Next"` gains exactly one newline between them, and accumulated
`"word"` with chunk `"Next"` gains none. -/
theorem format_gemini_output_break_placement :
    ∀ (content accumulated : String),
      (format_gemini_output content accumulated =
        (if (endsWithPeriod accumulated = true ∧ headIsUpper content = true)
         then "\n" else "") ++ String.mk (intraSpec content.data))
      ∧ format_gemini_output "Next" "word." = "\nNext"
      ∧ format_gemini_output "Next" "word" = "Next" := by
  intro content accumulated
  refine ⟨?_, by decide, by decide⟩
  simp only [format_gemini_output]
  rw [insertIntraBreaks_eq_intraSpec]
  by_cases h : endsWithPeriod accumulated = true ∧ headIsUpper content = true
  · rw [if_pos ⟨endsWithPeriod_ne_empty h.1, headIsUpper_ne_empty h.2, h.1, h.2⟩, if_pos h]
  · rw [if_neg (fun hh => h ⟨hh.2.2.1, hh.2.2.2⟩), if_neg h]

/-! ## Boundary finder: claim C5 -/

theorem testAt_eq_true_iff (p : Char → Bool) (cs : List Char) (j : Nat) :
    testAt p cs j = true ↔ ∃ c, cs.get? j = some c ∧ p c = true := by
  unfold testAt
  cases h : cs.get? j <;> simp

theorem searchDown_none_iff (p : Char → Bool) (cs : List Char) :
    ∀ n, searchDown p cs n = none ↔ ∀ j, j ≤ n → testAt p cs j = false := by
  intro n
  induction n with
  | zero =>
    constructor
    · intro h j hj
      have hj0 : j = 0 := Nat.le_zero.mp hj
      subst hj0
      by_cases ht : testAt p cs 0 = true
      · simp [searchDown, ht] at h
      · simpa using ht
    · intro hall
      have h0 : testAt p cs 0 = false := hall 0 (Nat.le_refl 0)
      simp [searchDown, h0]
  | succ n ih =>
    constructor
    · intro h j hj
      by_cases ht : testAt p cs (n + 1) = true
      · simp [searchDown, ht] at h
      · rcases Nat.lt_or_ge j (n + 1) with hlt | hge
        · have hn : searchDown p cs n = none := by
            simpa [searchDown, ht] using h
          exact (ih.mp hn) j (Nat.lt_succ_iff.mp hlt)
        · have hj1 : j = n + 1 := Nat.le_antisymm hj hge
          subst hj1
          simpa using ht
    · intro hall
      have ht : testAt p cs (n + 1) = false := hall (n + 1) (Nat.le_refl _)
      have hn : searchDown p cs n = none :=
        ih.mpr (fun j hj => hall j (Nat.le_trans hj (Nat.le_succ n)))
      simp [searchDown, ht, hn]

theorem searchDown_some_spec (p : Char → Bool) (cs : List Char) :
    ∀ n i, searchDown p cs n = some i →
      testAt p cs i = true ∧ i ≤ n ∧ ∀ j, j ≤ n → testAt p cs j = true → j ≤ i := by
  intro n
  induction n with
  | zero =>
    intro i h
    by_cases ht : testAt p cs 0 = true
    · simp only [searchDown, ht, if_pos, Option.some.injEq] at h
      subst h
      exact ⟨ht, Nat.le_refl 0, fun j hj _ => hj⟩
    · simp [searchDown, ht] at h
  | succ n ih =>
    intro i h
    by_cases ht : testAt p cs (n + 1) = true
    · simp only [searchDown, ht, if_pos, Option.some.injEq] at h
      subst h
      exact ⟨ht, Nat.le_refl _, fun j hj _ => hj⟩
    · have hn : searchDown p cs n = some i := by
        simpa [searchDown, ht] using h
      obtain ⟨h1, h2, h3⟩ := ih i hn
      refine ⟨h1, Nat.le_trans h2 (Nat.le_succ n), ?_⟩
      intro j hj hjt
      rcases Nat.lt_or_ge j (n + 1) with hlt | hge
      · exact h3 j (Nat.lt_succ_iff.mp hlt) hjt
      · have hj1 : j = n + 1 := Nat.le_antisymm hj hge
        subst hj1
        exact absurd hjt (by simp [ht])

theorem testAt_newline_iff (cs : List Char) (j : Nat) :
    testAt (fun c => decide (c = '\n')) cs j = true ↔ cs.get? j = some '\n' := by
  rw [testAt_eq_true_iff]
  constructor
  · rintro ⟨c, hc, hp⟩
    have : c = '\n' := by simpa using hp
    subst this
    exact hc
  · intro h
    exact ⟨'\n', h, by simp⟩

/-- C5: `find_chunk_boundary` is a pure function (determinism is inherent),
and for text longer than the limit `L` it returns: the position of the last
newline at or before `L` when one exists; otherwise the position of the
last sentence-ending punctuation mark at or before `L` when one exists;
otherwise `L` itself (hard cut). -/
theorem find_chunk_boundary_preference (text : String) (L : Nat) :
    (L < text.data.length →
      (∃ j, j ≤ L ∧ text.data.get? j = some '\n') →
      (text.data.get? (find_chunk_boundary text L) = some '\n' ∧
       find_chunk_boundary text L ≤ L ∧
       ∀ j, j ≤ L → text.data.get? j = some '\n' → j ≤ find_chunk_boundary text L))
    ∧ (L < text.data.length →
      (∀ j, j ≤ L → text.data.get? j ≠ some '\n') →
      (∃ j c, j ≤ L ∧ text.data.get? j = some c ∧ isSentenceEnd c = true) →
      ((∃ c, text.data.get? (find_chunk_boundary text L) = some c ∧ isSentenceEnd c = true) ∧
       find_chunk_boundary text L ≤ L ∧
       ∀ j c, j ≤ L → text.data.get? j = some c → isSentenceEnd c = true →
         j ≤ find_chunk_boundary text L))
    ∧ ((∀ j, j ≤ L → text.data.get? j ≠ some '\n') →
      (∀ j c, j ≤ L → text.data.get? j = some c → isSentenceEnd c = false) →
      find_chunk_boundary text L = L) := by
  refine ⟨?_, ?_, ?_⟩
  · intro _ ⟨j, hj, hjc⟩
    cases h : searchDown (fun c => decide (c = '\n')) text.data L with
    | none =>
      have := (searchDown_none_iff _ _ L).mp h j hj
      exact absurd ((testAt_newline_iff _ _).mpr hjc) (by simp [this])
    | some i =>
      obtain ⟨h1, h2, h3⟩ := searchDown_some_spec _ _ L i h
      have hfb : find_chunk_boundary text L = i := by
        unfold find_chunk_boundary
        rw [h]
      rw [hfb]
      exact ⟨(testAt_newline_iff _ _).mp h1, h2,
        fun j hj hjc => h3 j hj ((testAt_newline_iff _ _).mpr hjc)⟩
  · intro _ hnonl ⟨j, c, hj, hjc, hjs⟩
    have hnl : searchDown (fun c => decide (c = '\n')) text.data L = none := by
      rw [searchDown_none_iff]
      intro k hk
      by_cases ht : testAt (fun c => decide (c = '\n')) text.data k = true
      · exact absurd ((testAt_newline_iff _ _).mp ht) (hnonl k hk)
      · simpa using ht
    cases h : searchDown isSentenceEnd text.data L with
    | none =>
      have := (searchDown_none_iff _ _ L).mp h j hj
      have ht : testAt isSentenceEnd text.data j = true :=
        (testAt_eq_true_iff _ _ _).mpr ⟨c, hjc, hjs⟩
      exact absurd ht (by simp [this])
    | some i =>
      obtain ⟨h1, h2, h3⟩ := searchDown_some_spec _ _ L i h
      have hfb : find_chunk_boundary text L = i := by
        unfold find_chunk_boundary
        rw [hnl, h]
      rw [hfb]
      refine ⟨(testAt_eq_true_iff _ _ _).mp h1, h2, ?_⟩
      intro k ck hk hkc hks
      exact h3 k hk ((testAt_eq_true_iff _ _ _).mpr ⟨ck, hkc, hks⟩)
  · intro hnonl hnos
    have hnl : searchDown (fun c => decide (c = '\n')) text.data L = none := by
      rw [searchDown_none_iff]
      intro k hk
      by_cases ht : testAt (fun c => decide (c = '\n')) text.data k = true
      · exact absurd ((testAt_newline_iff _ _).mp ht) (hnonl k hk)
      · simpa using ht
    have hns : searchDown isSentenceEnd text.data L = none := by
      rw [searchDown_none_iff]
      intro k hk
      by_cases ht : testAt isSentenceEnd text.data k = true
      · obtain ⟨c, hc, hp⟩ := (testAt_eq_true_iff _ _ _).mp ht
        exact absurd hp (by simp [hnos k c hk hc])
      · simpa using ht
    unfold find_chunk_boundary
    rw [hnl, hns]

/-- Witness for C5: in `"ab\ncd\nef"` with limit 4, the newline branch
applies and the result is the last newline position at or before 4. -/
theorem find_chunk_boundary_preference_witness :
    "ab\ncd\nef".data.get? (find_chunk_boundary "ab\ncd\nef" 4) = some '\n' ∧
    find_chunk_boundary "ab\ncd\nef" 4 ≤ 4 := by
  have h := (find_chunk_boundary_preference "ab\ncd\nef" 4).1 (by decide)
    ⟨2, by decide, by decide⟩
  exact ⟨h.1, h.2.1⟩

/-! ## WAL store: claim C1 -/

theorem walLookup_set_same (s : WalStore) (e : Nat) (en0 en : WalEntry)
    (h : walLookup s e = some en0) : walLookup (walSet s e en) e = some en := by
  induction s with
  | nil => simp [walLookup] at h
  | cons p rest ih =>
    by_cases hk : p.1 = e
    · simp [walLookup, walSet, hk]
    · simp only [walLookup, walSet, hk, if_neg] at h ⊢
      exact ih h

theorem walLookup_set_other (s : WalStore) (e e' : Nat) (en : WalEntry)
    (hne : e' ≠ e) : walLookup (walSet s e en) e' = walLookup s e' := by
  induction s with
  | nil => simp [walSet]
  | cons p rest ih =>
    by_cases hk : p.1 = e
    · subst hk
      simp [walLookup, walSet, Ne.symm hne]
    · simp only [walSet, hk, if_neg, walLookup]
      by_cases hk' : p.1 = e'
      · simp [hk']
      · simp [hk', ih]

theorem walLookup_append (s t : WalStore) (e : Nat) :
    walLookup (s ++ t) e =
      match walLookup s e with
      | some en => some en
      | none => walLookup t e := by
  induction s with
  | nil => simp [walLookup]
  | cons p rest ih =>
    by_cases hk : p.1 = e
    · simp [walLookup, hk]
    · simp [walLookup, hk, ih]

theorem walLookup_push_same (s : WalStore) (e : Nat) (ps : List PatchOp) (len : Nat) :
    walLookup (walPush s e ps len) e =
      match walLookup s e with
      | some en => some
          { batches := en.batches ++ [{ batch_id := en.next_id, patches := ps, content_length := len }]
            next_id := en.next_id + 1 }
      | none => some { batches := [{ batch_id := 1, patches := ps, content_length := len }], next_id := 2 } := by
  unfold walPush
  cases h : walLookup s e with
  | some en =>
    simpa using walLookup_set_same s e en _ h
  | none =>
    rw [walLookup_append]
    simp [h, walLookup]

theorem walLookup_push_other (s : WalStore) (e e' : Nat) (ps : List PatchOp) (len : Nat)
    (hne : e' ≠ e) : walLookup (walPush s e ps len) e' = walLookup s e' := by
  unfold walPush
  cases h : walLookup s e with
  | some en => exact walLookup_set_other s e e' _ hne
  | none =>
    rw [walLookup_append]
    cases h' : walLookup s e' with
    | some en => simp
    | none => simp [walLookup, Ne.symm hne]

theorem walLookup_finalize_same (s : WalStore) (e : Nat) :
    walLookup (walFinalize s e) e = none := by
  induction s with
  | nil => simp [walFinalize, walLookup]
  | cons p rest ih =>
    by_cases hk : p.1 = e
    · simp [walFinalize, hk, ih]
    · simp [walFinalize, walLookup, hk, ih]

theorem walLookup_finalize_other (s : WalStore) (e e' : Nat) (hne : e' ≠ e) :
    walLookup (walFinalize s e) e' = walLookup s e' := by
  induction s with
  | nil => simp [walFinalize]
  | cons p rest ih =>
    by_cases hk : p.1 = e
    · subst hk
      simp [walFinalize, walLookup, Ne.symm hne, ih]
    · simp [walFinalize, walLookup, hk, ih]

theorem mkBatches_payload : ∀ (l : List (List PatchOp × Nat)) (start : Nat),
    (mkBatches start l).map batchPayload = l := by
  intro l
  induction l with
  | nil => intro start; rfl
  | cons p rest ih =>
    intro start
    cases p with
    | mk ps len => simp [mkBatches, batchPayload, ih]

theorem mkBatches_ids_ge : ∀ (l : List (List PatchOp × Nat)) (start : Nat),
    ∀ b ∈ mkBatches start l, start ≤ b.batch_id := by
  intro l
  induction l with
  | nil => intro start b hb; simp [mkBatches] at hb
  | cons p rest ih =>
    intro start b hb
    cases p with
    | mk ps len =>
      simp only [mkBatches, List.mem_cons] at hb
      rcases hb with hb | hb
      · subst hb; exact Nat.le_refl _
      · exact Nat.le_trans (Nat.le_succ start) (ih (start + 1) b hb)

theorem mkBatches_chain : ∀ (l : List (List PatchOp × Nat)) (start : Nat),
    List.Chain' (fun a b => a.batch_id < b.batch_id) (mkBatches start l) := by
  intro l
  induction l with
  | nil => intro start; simp [mkBatches]
  | cons p rest ih =>
    intro start
    cases p with
    | mk ps len =>
      cases rest with
      | nil => simp [mkBatches]
      | cons q rest' =>
        cases q with
        | mk qs qlen =>
          refine List.Chain'.cons ?_ (ih (start + 1))
          exact Nat.lt_succ_self start

theorem runWalOps_lookup (e : Nat) :
    ∀ (ops : List WalOp) (s : WalStore), noFinalizeFor e ops = true →
      walLookup (runWalOps s ops) e =
        match walLookup s e with
        | some en => some
            { batches := en.batches ++ mkBatches en.next_id (pushesFor e ops)
              next_id := en.next_id + (pushesFor e ops).length }
        | none =>
          match pushesFor e ops with
          | [] => none
          | ps => some { batches := mkBatches 1 ps, next_id := 1 + ps.length } := by
  intro ops
  induction ops with
  | nil =>
    intro s _
    cases hs : walLookup s e with
    | some en => simp [runWalOps, hs, pushesFor, mkBatches]
    | none => simp [runWalOps, hs, pushesFor]
  | cons op rest ih =>
    intro s hf
    simp only [noFinalizeFor, List.all_cons, Bool.and_eq_true] at hf
    have hfr : noFinalizeFor e rest = true := hf.2
    have hrun : runWalOps s (op :: rest) = runWalOps (applyWalOp s op) rest := rfl
    rw [hrun]
    cases op with
    | push e' ps len =>
      by_cases he : e' = e
      · subst he
        have hlk := walLookup_push_same s e' ps len
        rw [ih (applyWalOp s (WalOp.push e' ps len)) hfr]
        simp only [applyWalOp] at *
        have hpf : pushesFor e' (WalOp.push e' ps len :: rest)
            = (ps, len) :: pushesFor e' rest := by
          simp [pushesFor]
        cases hs : walLookup s e' with
        | some en =>
          rw [hs] at hlk
          rw [hlk, hpf]
          refine congrArg some ?_
          congr 1
          all_goals try simp [mkBatches, List.append_assoc]
          all_goals omega
        | none =>
          rw [hs] at hlk
          rw [hlk, hpf]
          refine congrArg some ?_
          congr 1
          all_goals try simp [mkBatches]
          all_goals omega
      · rw [ih (applyWalOp s (WalOp.push e' ps len)) hfr]
        simp only [applyWalOp]
        rw [walLookup_push_other s e' e ps len (Ne.symm he)]
        simp only [pushesFor, if_neg he]
    | fin e' =>
      have he : e' ≠ e := by simpa using hf.1
      rw [ih (applyWalOp s (WalOp.fin e')) hfr]
      simp only [applyWalOp]
      rw [walLookup_finalize_other s e' e (Ne.symm he)]
      simp only [pushesFor]

theorem walLookup_none_stable (e : Nat) :
    ∀ (ops : List WalOp) (s : WalStore), walLookup s e = none →
      noPushFor e ops = true → walLookup (runWalOps s ops) e = none := by
  intro ops
  induction ops with
  | nil => intro s hs _; exact hs
  | cons op rest ih =>
    intro s hs hp
    simp only [noPushFor, List.all_cons, Bool.and_eq_true] at hp
    have hrun : runWalOps s (op :: rest) = runWalOps (applyWalOp s op) rest := rfl
    rw [hrun]
    cases op with
    | push e' ps len =>
      have he : e' ≠ e := by simpa using hp.1
      refine ih (applyWalOp s (WalOp.push e' ps len)) ?_ hp.2
      simp only [applyWalOp]
      rw [walLookup_push_other s e' e ps len (Ne.symm he)]
      exact hs
    | fin e' =>
      refine ih (applyWalOp s (WalOp.fin e')) ?_ hp.2
      simp only [applyWalOp]
      by_cases he : e' = e
      · subst he; exact walLookup_finalize_same s e'
      · rw [walLookup_finalize_other s e' e (Ne.symm he)]; exact hs

/-- C1: over any operation sequence with no finalize for execution id `e`
(starting from the empty store), read with cursor 0 returns exactly the
batches pushed for `e`, in push order, with strictly increasing ids (so
each append received an id strictly greater than every earlier one); a
read with cursor `X` never returns a batch with id at most `X`; and once
finalize has run for `e`, reads keep returning absent through any further
operations that do not push to `e`. -/
theorem wal_monotonic_cursor_finalize (e : Nat) (ops ops2 : List WalOp)
    (hfin : noFinalizeFor e ops = true) (hp2 : noPushFor e ops2 = true) :
    ((get_wal_batches (runWalOps [] ops) e (some 0)).map (List.map batchPayload)
        = match pushesFor e ops with
          | [] => none
          | ps => some ps)
    ∧ (∀ l, get_wal_batches (runWalOps [] ops) e (some 0) = some l →
        List.Chain' (fun a b => a.batch_id < b.batch_id) l)
    ∧ (∀ X l b, get_wal_batches (runWalOps [] ops) e (some X) = some l → b ∈ l →
        X < b.batch_id)
    ∧ (∀ after,
        get_wal_batches (runWalOps (walFinalize (runWalOps [] ops) e) ops2) e after = none) := by
  have hlk := runWalOps_lookup e ops [] hfin
  have hnil : walLookup ([] : WalStore) e = none := rfl
  rw [hnil] at hlk
  have hfilter : ∀ ps : List (List PatchOp × Nat),
      (mkBatches 1 ps).filter (fun b => decide (0 < b.batch_id)) = mkBatches 1 ps := by
    intro ps
    apply List.filter_eq_self.mpr
    intro b hb
    have := mkBatches_ids_ge ps 1 b hb
    simp
    omega
  refine ⟨?_, ?_, ?_, ?_⟩
  · cases hps : pushesFor e ops with
    | nil =>
      rw [hps] at hlk
      have hlk2 : walLookup (runWalOps [] ops) e = none := hlk
      simp [get_wal_batches, hlk2]
    | cons p rest =>
      rw [hps] at hlk
      have hlk2 : walLookup (runWalOps [] ops) e
          = some { batches := mkBatches 1 (p :: rest), next_id := 1 + (p :: rest).length } := hlk
      have hget : get_wal_batches (runWalOps [] ops) e (some 0)
          = some (mkBatches 1 (p :: rest)) := by
        unfold get_wal_batches
        rw [hlk2]
        exact congrArg some (hfilter (p :: rest))
      show (get_wal_batches (runWalOps [] ops) e (some 0)).map (List.map batchPayload)
          = some (p :: rest)
      rw [hget]
      exact congrArg some (mkBatches_payload (p :: rest) 1)
  · intro l hl
    cases hps : pushesFor e ops with
    | nil =>
      rw [hps] at hlk
      have hlk2 : walLookup (runWalOps [] ops) e = none := hlk
      simp [get_wal_batches, hlk2] at hl
    | cons p rest =>
      rw [hps] at hlk
      have hlk2 : walLookup (runWalOps [] ops) e
          = some { batches := mkBatches 1 (p :: rest), next_id := 1 + (p :: rest).length } := hlk
      have hget : get_wal_batches (runWalOps [] ops) e (some 0)
          = some (mkBatches 1 (p :: rest)) := by
        unfold get_wal_batches
        rw [hlk2]
        exact congrArg some (hfilter (p :: rest))
      rw [hget] at hl
      obtain rfl : mkBatches 1 (p :: rest) = l := Option.some.inj hl
      exact mkBatches_chain (p :: rest) 1
  · intro X l b hl hb
    unfold get_wal_batches at hl
    cases hlu : walLookup (runWalOps [] ops) e with
    | none =>
      rw [hlu] at hl
      simp at hl
    | some en =>
      rw [hlu] at hl
      have hl2 : List.filter (fun b => decide (X < b.batch_id)) en.batches = l :=
        Option.some.inj hl
      subst hl2
      have hmem := List.mem_filter.mp hb
      simpa using hmem.2
  · intro after
    have hnone : walLookup (runWalOps (walFinalize (runWalOps [] ops) e) ops2) e = none :=
      walLookup_none_stable e ops2 _ (walLookup_finalize_same _ e) hp2
    simp [get_wal_batches, hnone]

/-- Witness for C1: three pushes, two of them for execution id 1, read back
with cursor 0 in push order. -/
theorem wal_monotonic_cursor_finalize_witness :
    (get_wal_batches
        (runWalOps []
          [WalOp.push 1 [{ op := POp.replace, index := 0, content := "a" }] 5,
           WalOp.push 2 [] 0,
           WalOp.push 1 [{ op := POp.replace, index := 0, content := "ab" }] 3])
        1 (some 0)).map (List.map batchPayload)
      = some [([{ op := POp.replace, index := 0, content := "a" }], 5),
              ([{ op := POp.replace, index := 0, content := "ab" }], 3)] := by
  have h := (wal_monotonic_cursor_finalize 1
    [WalOp.push 1 [{ op := POp.replace, index := 0, content := "a" }] 5,
     WalOp.push 2 [] 0,
     WalOp.push 1 [{ op := POp.replace, index := 0, content := "ab" }] 3]
    [WalOp.fin 2] (by decide) (by decide)).1
  rw [h]
  rfl

/-! ## Streaming engine: claims C2, C7, C8 -/

theorem engineExt_refl (a : EngineState) : EngineExt a a :=
  ⟨Nat.le_refl _, [], by simp, by simp⟩

theorem engineExt_trans {a b c : EngineState}
    (h1 : EngineExt a b) (h2 : EngineExt b c) : EngineExt a c := by
  obtain ⟨hc1, t1, ht1, hp1⟩ := h1
  obtain ⟨hc2, t2, ht2, hp2⟩ := h2
  refine ⟨Nat.le_trans hc1 hc2, t1 ++ t2, ?_, ?_⟩
  · rw [ht2, ht1, List.append_assoc]
  · intro p hp
    rcases List.mem_append.mp hp with h | h
    · exact hp1 p h
    · exact ⟨(hp2 p h).1, Nat.le_trans hc1 (hp2 p h).2⟩

theorem engineExt_of_same {a b : EngineState}
    (hc : b.entry_count = a.entry_count) (ht : b.trace = a.trace) : EngineExt a b := by
  refine ⟨Nat.le_of_eq hc.symm, [], ?_, by simp⟩
  rw [ht, List.append_nil]

theorem emit_message_patch_extends (e : Nat) (m : String) (s : EngineState) :
    EngineExt s (emit_message_patch e m false s) := by
  unfold emit_message_patch
  by_cases hm : m = ""
  · rw [if_pos hm]
    exact engineExt_refl s
  · rw [if_neg hm, if_neg (by simp)]
    by_cases hz : s.entry_count = 0
    · refine ⟨?_, [{ op := POp.replace, index := (if s.entry_count = 0 then 1 else s.entry_count) - 1, content := m }], rfl, ?_⟩
      · simp [pushPatch, hz]
      · intro p hp
        rcases List.mem_singleton.mp hp with rfl
        simp [hz]
    · refine ⟨?_, [{ op := POp.replace, index := (if s.entry_count = 0 then 1 else s.entry_count) - 1, content := m }], rfl, ?_⟩
      · simp [pushPatch, hz]
      · intro p hp
        rcases List.mem_singleton.mp hp with rfl
        refine ⟨rfl, ?_⟩
        rw [if_neg hz]
        show s.entry_count ≤ s.entry_count - 1 + 1
        omega

theorem maybe_flush_extends (cfg : GeminiStreamConfig) (s : EngineState) :
    EngineExt s (maybe_flush_chunk cfg s) := by
  unfold maybe_flush_chunk
  split
  · exact engineExt_of_same rfl rfl
  · exact engineExt_refl s

theorem stepAppend_extends (s : EngineState) (raw : String) :
    EngineExt s (stepAppend s raw) :=
  engineExt_of_same rfl rfl

theorem stepEmitChunk_extends (cfg : GeminiStreamConfig) (e : Nat) (lat : Bool)
    (s : EngineState) : EngineExt s (stepEmitChunk cfg e lat s) := by
  unfold stepEmitChunk
  split
  · exact emit_message_patch_extends e s.current_message s
  · exact engineExt_refl s

theorem stepBoundary_extends (cfg : GeminiStreamConfig) (e : Nat) (s : EngineState) :
    EngineExt s (stepBoundary cfg e s) := by
  unfold stepBoundary
  split
  · show EngineExt s
      (if 0 < find_chunk_boundary s.current_message cfg.message_boundary_size ∧
          find_chunk_boundary s.current_message cfg.message_boundary_size
            < s.current_message.length
       then _ else s)
    split
    · refine engineExt_trans
        (emit_message_patch_extends e
          (s.current_message.take (find_chunk_boundary s.current_message cfg.message_boundary_size)) s) ?_
      refine engineExt_trans (maybe_flush_extends cfg _) ?_
      exact ⟨Nat.le_succ _, [], by rw [List.append_nil], by simp⟩
    · exact engineExt_refl s
  · exact engineExt_refl s

theorem stepRead_extends (cfg : GeminiStreamConfig) (e : Nat) (s : EngineState)
    (raw : String) (lat : Bool) : EngineExt s (stepRead cfg e s raw lat) := by
  unfold stepRead
  refine engineExt_trans (stepAppend_extends s raw) ?_
  refine engineExt_trans (stepEmitChunk_extends cfg e lat _) ?_
  refine engineExt_trans (stepBoundary_extends cfg e _) ?_
  exact maybe_flush_extends cfg _

theorem stepEof_extends (cfg : GeminiStreamConfig) (e : Nat) (s : EngineState) :
    EngineExt s (stepEof cfg e s) := by
  unfold stepEof
  split
  · refine engineExt_trans (emit_message_patch_extends e s.current_message s) ?_
    exact engineExt_of_same rfl rfl
  · exact engineExt_of_same rfl rfl

theorem runEngine_extends (cfg : GeminiStreamConfig) (e : Nat) :
    ∀ (evs : List Event) (s : EngineState), EngineExt s (runEngine cfg e s evs) := by
  intro evs
  induction evs with
  | nil => intro s; exact engineExt_refl s
  | cons ev rest ih =>
    intro s
    cases ev with
    | read raw lat =>
      exact engineExt_trans (stepRead_extends cfg e s raw lat) (ih _)
    | eof => exact stepEof_extends cfg e s
    | err => exact engineExt_refl s

theorem runEngine_append_extends (cfg : GeminiStreamConfig) (e : Nat) :
    ∀ (evs1 evs2 : List Event) (s : EngineState),
      EngineExt (runEngine cfg e s evs1) (runEngine cfg e s (evs1 ++ evs2)) := by
  intro evs1
  induction evs1 with
  | nil => intro evs2 s; exact runEngine_extends cfg e evs2 s
  | cons ev rest ih =>
    intro evs2 s
    cases ev with
    | read raw lat => exact ih evs2 (stepRead cfg e s raw lat)
    | eof => exact engineExt_refl _
    | err => exact engineExt_refl _

/-- C2: once a boundary crossing has completed the entry at zero-based
index `N` — in this code the entry counter exceeds 1 only through the
boundary branch, which emits the completing `replace` patch at index `N`
with counter `N + 1` and then increments it, so "entry `N` has been
completed" is exactly "the counter has reached `N + 2`" — every patch
pushed later in the run is a `replace` (never an `add`) targeting an index
of at least `N + 1`. -/
theorem boundary_completion_index_integrity (cfg : GeminiStreamConfig) (e : Nat)
    (evs1 evs2 : List Event) (N : Nat)
    (h : N + 2 ≤ (runEngine cfg e initState evs1).entry_count) :
    ∀ p ∈ (runEngine cfg e initState (evs1 ++ evs2)).trace.drop
        (runEngine cfg e initState evs1).trace.length,
      p.op = POp.replace ∧ N + 1 ≤ p.index := by
  obtain ⟨hc, t, ht, hp⟩ := runEngine_append_extends cfg e evs1 evs2 initState
  intro p hmem
  rw [ht, List.drop_left] at hmem
  obtain ⟨hop, hidx⟩ := hp p hmem
  refine ⟨hop, ?_⟩
  omega

/-- Witness for C2: with display size 1 and boundary size 3, the read
`"ab.Xy"` is formatted to `"ab.\nXy"`, emitted, and split at the newline,
completing entry 0; the patch pushed by the following read targets index 1
with a `replace`. -/
theorem boundary_completion_index_integrity_witness :
    (({ op := POp.replace, index := 1, content := "\nXyzz" } : PatchOp) ∈
      (runEngine { display_chunk_size := 1, message_boundary_size := 3, db_flush_size := 100 }
          7 initState ([Event.read "ab.Xy" false] ++ [Event.read "zz" false])).trace.drop
        (runEngine { display_chunk_size := 1, message_boundary_size := 3, db_flush_size := 100 }
          7 initState [Event.read "ab.Xy" false]).trace.length)
    ∧ ({ op := POp.replace, index := 1, content := "\nXyzz" } : PatchOp).op = POp.replace
    ∧ 0 + 1 ≤ ({ op := POp.replace, index := 1, content := "\nXyzz" } : PatchOp).index := by
  have hmem : ({ op := POp.replace, index := 1, content := "\nXyzz" } : PatchOp) ∈
      (runEngine { display_chunk_size := 1, message_boundary_size := 3, db_flush_size := 100 }
          7 initState ([Event.read "ab.Xy" false] ++ [Event.read "zz" false])).trace.drop
        (runEngine { display_chunk_size := 1, message_boundary_size := 3, db_flush_size := 100 }
          7 initState [Event.read "ab.Xy" false]).trace.length := by decide
  have h := boundary_completion_index_integrity
    { display_chunk_size := 1, message_boundary_size := 3, db_flush_size := 100 } 7
    [Event.read "ab.Xy" false] [Event.read "zz" false] 0 (by decide) _ hmem
  exact ⟨hmem, h.1, h.2⟩

theorem runEngine_append_eof (cfg : GeminiStreamConfig) (e : Nat) :
    ∀ (evs : List Event) (s : EngineState) (rest : List Event), allReads evs = true →
      runEngine cfg e s (evs ++ Event.eof :: rest) = stepEof cfg e (runEngine cfg e s evs) := by
  intro evs
  induction evs with
  | nil => intro s rest _; rfl
  | cons ev evs ih =>
    intro s rest hall
    cases ev with
    | read raw lat =>
      simp only [allReads, List.all_cons, Bool.and_eq_true] at hall
      exact ih (stepRead cfg e s raw lat) rest hall.2
    | eof => simp [allReads] at hall
    | err => simp [allReads] at hall

theorem runEngine_append_err (cfg : GeminiStreamConfig) (e : Nat) :
    ∀ (evs : List Event) (s : EngineState) (rest : List Event), allReads evs = true →
      runEngine cfg e s (evs ++ Event.err :: rest) = runEngine cfg e s evs := by
  intro evs
  induction evs with
  | nil => intro s rest _; rfl
  | cons ev evs ih =>
    intro s rest hall
    cases ev with
    | read raw lat =>
      simp only [allReads, List.all_cons, Bool.and_eq_true] at hall
      exact ih (stepRead cfg e s raw lat) rest hall.2
    | eof => simp [allReads] at hall
    | err => simp [allReads] at hall

theorem trim_empty_of_empty {s : String} (h : s = "") : rustTrim s = "" := by
  subst h
  rfl

theorem emit_message_patch_db (e : Nat) (m : String) (f : Bool) (s : EngineState) :
    (emit_message_patch e m f s).db = s.db ∧
    (emit_message_patch e m f s).db_buffer = s.db_buffer := by
  unfold emit_message_patch pushPatch
  split
  · exact ⟨rfl, rfl⟩
  · split
    · exact ⟨rfl, rfl⟩
    · exact ⟨rfl, rfl⟩

/-- C7, counterexample to the claim as stated: after one read of `" "` the
remaining message content is non-empty, yet the end-of-stream path emits no
final patch at all (the trace stays empty), because `emit_final_content`
(source line 390) skips content that trims to empty — "any non-empty
remaining message content" is wrong for a whitespace-only remainder. -/
theorem eof_final_emit_counterexample :
    (runEngine { display_chunk_size := 10, message_boundary_size := 100, db_flush_size := 100 }
        3 initState [Event.read " " false]).current_message ≠ ""
    ∧ (runEngine { display_chunk_size := 10, message_boundary_size := 100, db_flush_size := 100 }
        3 initState ([Event.read " " false] ++ [Event.eof])).trace
      = (runEngine { display_chunk_size := 10, message_boundary_size := 100, db_flush_size := 100 }
        3 initState [Event.read " " false]).trace := by
  decide

/-- C7, amended: when the reader loop sees end-of-stream after a sequence
of successful reads, it (i) runs exactly the end-of-stream path and stops —
events after the EOF are never processed; (ii) emits one final `replace`
patch carrying the remaining message when that message does not trim to
empty, and no patch otherwise (in particular none for a whitespace-only
remainder); (iii) leaves no WAL entry for the execution id (eviction); and
(iv) appends the remaining durable buffer to the durable store. -/
theorem eof_final_emit_flush_evict (cfg : GeminiStreamConfig) (e : Nat)
    (evs rest : List Event) (hall : allReads evs = true) :
    (runEngine cfg e initState (evs ++ Event.eof :: rest)
        = stepEof cfg e (runEngine cfg e initState evs))
    ∧ (rustTrim (runEngine cfg e initState evs).current_message ≠ "" →
        (runEngine cfg e initState (evs ++ Event.eof :: rest)).trace
          = (runEngine cfg e initState evs).trace ++
            [{ op := POp.replace
               index := (if (runEngine cfg e initState evs).entry_count = 0 then 1
                         else (runEngine cfg e initState evs).entry_count) - 1
               content := (runEngine cfg e initState evs).current_message }])
    ∧ (rustTrim (runEngine cfg e initState evs).current_message = "" →
        (runEngine cfg e initState (evs ++ Event.eof :: rest)).trace
          = (runEngine cfg e initState evs).trace)
    ∧ walLookup (runEngine cfg e initState (evs ++ Event.eof :: rest)).wal e = none
    ∧ (runEngine cfg e initState (evs ++ Event.eof :: rest)).db
        = (runEngine cfg e initState evs).db ++
          (if (runEngine cfg e initState evs).db_buffer = "" then []
           else [(runEngine cfg e initState evs).db_buffer]) := by
  have hrun := runEngine_append_eof cfg e evs initState rest hall
  refine ⟨hrun, ?_, ?_, ?_, ?_⟩
  · intro htrim
    rw [hrun]
    unfold stepEof
    rw [if_pos htrim]
    show (emit_message_patch e _ false _).trace = _
    have hm : (runEngine cfg e initState evs).current_message ≠ "" :=
      fun hh => htrim (trim_empty_of_empty hh)
    unfold emit_message_patch
    rw [if_neg hm, if_neg (by simp)]
    rfl
  · intro htrim
    rw [hrun]
    unfold stepEof
    rw [if_neg (fun hh => hh htrim)]
  · rw [hrun]
    exact walLookup_finalize_same _ e
  · rw [hrun]
    unfold stepEof
    by_cases ht : rustTrim (runEngine cfg e initState evs).current_message ≠ ""
    · rw [if_pos ht]
      show (emit_message_patch e _ false _).db ++ _ = _
      rw [(emit_message_patch_db e _ false _).1, (emit_message_patch_db e _ false _).2]
    · rw [if_neg ht]

/-- Witness for C7: one read `"hi"` with the latency timer expired, then
end-of-stream; the WAL entry is evicted and the durable buffer is flushed. -/
theorem eof_final_emit_flush_evict_witness :
    walLookup (runEngine { display_chunk_size := 10, message_boundary_size := 100, db_flush_size := 100 }
        3 initState ([Event.read "hi" true] ++ Event.eof :: [])).wal 3 = none
    ∧ (runEngine { display_chunk_size := 10, message_boundary_size := 100, db_flush_size := 100 }
        3 initState ([Event.read "hi" true] ++ Event.eof :: [])).db
      = (runEngine { display_chunk_size := 10, message_boundary_size := 100, db_flush_size := 100 }
          3 initState [Event.read "hi" true]).db ++
        (if (runEngine { display_chunk_size := 10, message_boundary_size := 100, db_flush_size := 100 }
              3 initState [Event.read "hi" true]).db_buffer = "" then []
         else [(runEngine { display_chunk_size := 10, message_boundary_size := 100, db_flush_size := 100 }
              3 initState [Event.read "hi" true]).db_buffer]) := by
  have h := eof_final_emit_flush_evict
    { display_chunk_size := 10, message_boundary_size := 100, db_flush_size := 100 }
    3 [Event.read "hi" true] [] (by decide)
  exact ⟨h.2.2.2.1, h.2.2.2.2⟩

/-- C8: a read error terminates the loop with no further action at all —
the resulting state is exactly the pre-error state, so no final patch is
emitted, nothing is flushed or finalized, patches already pushed stay in
the WAL, and content still in the local buffers is simply dropped; events
after the error are never processed. -/
theorem read_error_terminates_without_flush (cfg : GeminiStreamConfig) (e : Nat)
    (evs rest : List Event) (hall : allReads evs = true) :
    (runEngine cfg e initState (evs ++ Event.err :: rest)
        = runEngine cfg e initState evs)
    ∧ (runEngine cfg e initState (evs ++ Event.err :: rest)).trace
        = (runEngine cfg e initState evs).trace
    ∧ (runEngine cfg e initState (evs ++ Event.err :: rest)).db
        = (runEngine cfg e initState evs).db
    ∧ walLookup (runEngine cfg e initState (evs ++ Event.err :: rest)).wal e
        = walLookup (runEngine cfg e initState evs).wal e := by
  have h := runEngine_append_err cfg e evs initState rest hall
  exact ⟨h, by rw [h], by rw [h], by rw [h]⟩

/-- Witness for C8: one successful read, then a read error with a further
(ignored) read after it; the state equals the pre-error state. -/
theorem read_error_terminates_without_flush_witness :
    runEngine { display_chunk_size := 10, message_boundary_size := 100, db_flush_size := 100 }
        3 initState ([Event.read "hi" true] ++ Event.err :: [Event.read "bye" true])
      = runEngine { display_chunk_size := 10, message_boundary_size := 100, db_flush_size := 100 }
        3 initState [Event.read "hi" true] :=
  (read_error_terminates_without_flush
    { display_chunk_size := 10, message_boundary_size := 100, db_flush_size := 100 }
    3 [Event.read "hi" true] [Event.read "bye" true] (by decide)).1

/-! ## Follow-up prompt: claim C9 -/

theorem strContains_refl (m : String) : strContains m m :=
  ⟨"", "", by simp⟩

theorem strContains_appL (a b m : String) (h : strContains a m) :
    strContains (a ++ b) m := by
  obtain ⟨pre, post, hp⟩ := h
  exact ⟨pre, post ++ b, by rw [hp]; simp [String.append_assoc]⟩

theorem strContains_appR (a b m : String) (h : strContains b m) :
    strContains (a ++ b) m := by
  obtain ⟨pre, post, hp⟩ := h
  exact ⟨a ++ pre, post, by rw [hp, String.append_assoc]⟩

set_option maxRecDepth 8000 in
/-- C9, counterexample: with a whitespace-only (hence non-empty) execution
history `" "`, the built prompt substitutes the placeholder even though the
history text is not empty, so it differs from the prompt the claim
describes (placeholders exactly on empty texts, verbatim otherwise). -/
theorem build_comprehensive_prompt_counterexample :
    build_comprehensive_prompt c9Exec c9Task c9Ctx
      ≠ buildPromptClaimed c9Exec c9Task c9Ctx := by
  decide

/-- C9, amended: the composed prompt contains the task description verbatim
(or `"No description provided"` when the description is absent), the
execution history verbatim when it does not trim to empty (otherwise the
placeholder `"(No previous execution history)"`), the cumulative diffs
verbatim when they do not trim to empty (otherwise `"(No changes
detected)"`), and the new request verbatim. -/
theorem build_comprehensive_prompt_placeholders (ex : GeminiFollowupExecutor)
    (t : TaskModel) (c : AttemptResumeContext) :
    strContains (build_comprehensive_prompt ex t c)
      (t.description.getD "No description provided")
    ∧ strContains (build_comprehensive_prompt ex t c)
        (if rustTrim c.execution_history = "" then "(No previous execution history)"
         else c.execution_history)
    ∧ strContains (build_comprehensive_prompt ex t c)
        (if rustTrim c.cumulative_diffs = "" then "(No changes detected)"
         else c.cumulative_diffs)
    ∧ strContains (build_comprehensive_prompt ex t c) ex.prompt := by
  refine ⟨?_, ?_, ?_, ?_⟩
  · unfold build_comprehensive_prompt
    apply strContains_appL
    apply strContains_appL
    apply strContains_appL
    apply strContains_appL
    apply strContains_appL
    apply strContains_appL
    apply strContains_appL
    exact strContains_appR _ _ _ (strContains_refl _)
  · unfold build_comprehensive_prompt
    apply strContains_appL
    apply strContains_appL
    apply strContains_appL
    apply strContains_appL
    apply strContains_appL
    exact strContains_appR _ _ _ (strContains_refl _)
  · unfold build_comprehensive_prompt
    apply strContains_appL
    apply strContains_appL
    apply strContains_appL
    exact strContains_appR _ _ _ (strContains_refl _)
  · unfold build_comprehensive_prompt
    apply strContains_appL
    exact strContains_appR _ _ _ (strContains_refl _)
